import Mathlib

/-!
Verification of `linear-github-cli` against its natural-language specification.

Strings are modelled as `List Char`.  Network and shell effects are modelled
by explicit environments (functions giving the response of each external
query) together with traces of the operations the code performs.  JavaScript
`toLowerCase` is modelled on the ASCII range, which is exact for every input
the proved properties depend on (all comparisons in the source are against
ASCII-only literals or strip non-ASCII characters).
-/

namespace LinearGithubCli

abbrev Str := List Char

/-! ## Sync-wait poller (`linear-client.ts`, `waitForIssueByGitHubUrl`) -/

/-- Outcome of one poller run: the returned value, the number of lookup
queries performed, the attempt numbers at which `onRetry` was invoked,
and the sleep durations (ms) in order. -/
structure PollRun where
  result : Option Str
  queries : Nat
  retries : List Nat
  sleeps : List Nat
deriving DecidableEq, Repr

/-- The termination test of the loop body: `maxAttempts !== undefined &&
attempt >= maxAttempts`. -/
def stopNow (maxAttempts : Option Nat) (attempt : Nat) : Bool :=
  match maxAttempts with
  | some m => attempt ≥ m
  | none => false

/-- Loop body of `waitForIssueByGitHubUrl`, embedded with explicit fuel.
`lookup a` is the value `findIssueByGitHubUrl` returns on the `a`-th
attempt.  `none` as overall result means the fuel ran out before the loop
returned (the source loop `for (let attempt = 1; ; attempt++)` has no bound
of its own).  The source sleeps `delayMs` when `delayMs > 0` and `0 ms`
otherwise, which is `delayMs` in both cases. -/
def waitGo (lookup : Nat → Option Str) (maxAttempts : Option Nat) (delayMs : Nat) :
    Nat → Nat → Option PollRun
  | 0, _ => none
  | fuel + 1, attempt =>
    match lookup attempt with
    | some id => some { result := some id, queries := 1, retries := [], sleeps := [] }
    | none =>
      if stopNow maxAttempts attempt then
        some { result := none, queries := 1, retries := [], sleeps := [] }
      else
        match waitGo lookup maxAttempts delayMs fuel (attempt + 1) with
        | none => none
        | some run =>
          some { result := run.result, queries := run.queries + 1,
                 retries := attempt :: run.retries, sleeps := delayMs :: run.sleeps }

/-- `waitForIssueByGitHubUrl` from `linear-client.ts`: the delay defaults to
`5000` ms when the option is omitted, the attempt counter starts at `1`. -/
def waitForIssueByGitHubUrl (lookup : Nat → Option Str)
    (maxAttempts : Option Nat) (delayMsOpt : Option Nat) (fuel : Nat) : Option PollRun :=
  waitGo lookup maxAttempts (delayMsOpt.getD 5000) fuel 1

/-- `linearSyncDelayMs` from `commands/create-parent.ts`. -/
def linearSyncDelayMs : Nat := 500

/-- `linearSyncMaxWaitMs` from `commands/create-parent.ts`. -/
def linearSyncMaxWaitMs : Nat := 10000

/-- `Math.floor(linearSyncMaxWaitMs / linearSyncDelayMs) + 1` from
`commands/create-parent.ts` (floor of a quotient of naturals is `Nat`
division). -/
def linearSyncMaxAttempts : Nat := linearSyncMaxWaitMs / linearSyncDelayMs + 1

/-! ## Branch-name utilities (branch utility module, both copies) -/

/-- The code points matched by the JavaScript regex class `\s` and removed
by `String.prototype.trim`. -/
def isJsWhitespace (c : Char) : Bool :=
  decide (c.toNat = 0x09 ∨ c.toNat = 0x0A ∨ c.toNat = 0x0B ∨ c.toNat = 0x0C ∨
    c.toNat = 0x0D ∨ c.toNat = 0x20 ∨ c.toNat = 0xA0 ∨ c.toNat = 0x1680 ∨
    c.toNat = 0x2000 ∨ c.toNat = 0x2001 ∨ c.toNat = 0x2002 ∨ c.toNat = 0x2003 ∨
    c.toNat = 0x2004 ∨ c.toNat = 0x2005 ∨ c.toNat = 0x2006 ∨ c.toNat = 0x2007 ∨
    c.toNat = 0x2008 ∨ c.toNat = 0x2009 ∨ c.toNat = 0x200A ∨ c.toNat = 0x2028 ∨
    c.toNat = 0x2029 ∨ c.toNat = 0x202F ∨ c.toNat = 0x205F ∨ c.toNat = 0x3000 ∨
    c.toNat = 0xFEFF)

/-- `title.trim()`: whitespace stripped from both ends. -/
def jsTrim (l : Str) : Str :=
  ((l.dropWhile isJsWhitespace).reverse.dropWhile isJsWhitespace).reverse

/-- The character class `[a-z0-9]` (code points 97-122 and 48-57). -/
def isLowerAlnum (c : Char) : Bool :=
  (decide (97 ≤ c.toNat) && decide (c.toNat ≤ 122)) ||
  (decide (48 ≤ c.toNat) && decide (c.toNat ≤ 57))

/-- The character class `[A-Z]` (code points 65-90). -/
def isUpperAlpha (c : Char) : Bool :=
  decide (65 ≤ c.toNat) && decide (c.toNat ≤ 90)

/-- The character class `\d` = `[0-9]` (code points 48-57). -/
def isDigitChar (c : Char) : Bool :=
  decide (48 ≤ c.toNat) && decide (c.toNat ≤ 57)

/-- A hyphen test, the predicate of the regexes `-+` and `^-+|-+$`. -/
def isHy (c : Char) : Bool := c == '-'

/-- Auxiliary scanner for `collapseRuns`: `inRun` records whether the
previous character was part of a run being collapsed. -/
def collapseRunsGo (p : Char → Bool) (r : Char) : Bool → Str → Str
  | _, [] => []
  | inRun, c :: rest =>
    if p c then
      if inRun then collapseRunsGo p r true rest
      else r :: collapseRunsGo p r true rest
    else c :: collapseRunsGo p r false rest

/-- `replace(/X+/g, r)` for a character class `p`: every maximal run of
characters satisfying `p` becomes the single character `r`. -/
def collapseRuns (p : Char → Bool) (r : Char) (l : Str) : Str :=
  collapseRunsGo p r false l

/-- `replace` with regex `-+$`: trailing hyphens removed. -/
def dropTrailingHyphens (l : Str) : Str :=
  (l.reverse.dropWhile isHy).reverse

/-- `replace` with regex `^-+|-+$` (global): both boundary hyphen runs
removed. -/
def trimHyphens (l : Str) : Str :=
  dropTrailingHyphens (l.dropWhile isHy)

/-- `sanitizeBranchName` (identical in both copies of the branch utility
module): lowercase, whitespace runs to single hyphens, strip characters
outside `[a-z0-9-]`, collapse hyphen runs, trim boundary hyphens, truncate
to 50 characters and trim any hyphen the truncation left dangling.
`Char.toLower` models `toLowerCase` on the ASCII range; non-ASCII
characters are removed by the `[^a-z0-9-]` filter either way. -/
def sanitizeBranchName (title : Str) : Str :=
  if jsTrim title = [] then []
  else
    let s1 := collapseRuns isJsWhitespace '-' (title.map Char.toLower)
    let s2 := s1.filter (fun c => isLowerAlnum c || isHy c)
    let s3 := collapseRuns isHy '-' s2
    let s4 := trimHyphens s3
    if 50 < s4.length then dropTrailingHyphens (s4.take 50) else s4

/-- `sanitizeBranchOwner` from the second copy of the branch utility
module: like `sanitizeBranchName` but with no whitespace step and no
length limit. -/
def sanitizeBranchOwner (owner : Str) : Str :=
  if jsTrim owner = [] then []
  else
    let s1 := (owner.map Char.toLower).filter (fun c => isLowerAlnum c || isHy c)
    let s2 := collapseRuns isHy '-' s1
    trimHyphens s2

/-- `generateBranchName(owner, linearId, title)` (second copy):
`{sanitizedOwner || 'user'}/{linearId}` when the sanitized title is empty,
else `{sanitizedOwner || 'user'}/{linearId}-{sanitizedTitle}`. -/
def generateBranchName (owner linearId title : Str) : Str :=
  let sanitizedOwner := sanitizeBranchOwner owner
  let sanitizedTitle := sanitizeBranchName title
  let ownerSegment := if sanitizedOwner = [] then ("user".toList) else sanitizedOwner
  if sanitizedTitle = [] then ownerSegment ++ '/' :: linearId
  else ownerSegment ++ '/' :: (linearId ++ '-' :: sanitizedTitle)

/-- One attempt of `/([A-Z]+-\d+)/` anchored at the start of `l`.
Maximal munch is exact for this regex: a backtracked shorter `[A-Z]+` run
is followed by another uppercase letter, never by `'-'`, and nothing
follows `\d+`, so no backtracking can succeed where greedy matching
fails. -/
def matchLinearIdHere (l : Str) : Option Str :=
  let letters := l.takeWhile isUpperAlpha
  if letters = [] then none
  else
    match l.dropWhile isUpperAlpha with
    | '-' :: rest =>
      let digits := rest.takeWhile isDigitChar
      if digits = [] then none else some (letters ++ '-' :: digits)
    | _ => none

/-- Leftmost match of `/([A-Z]+-\d+)/`: try each start position from the
left, first success wins. -/
def findLinearId : Str → Option Str
  | [] => none
  | c :: rest =>
    match matchLinearIdHere (c :: rest) with
    | some m => some m
    | none => findLinearId rest

/-- `extractLinearIssueId` (identical in both copies): `null` on an
empty-after-trim name, else the first substring matching `[A-Z]+-\d+`. -/
def extractLinearIssueId (branchName : Str) : Option Str :=
  if jsTrim branchName = [] then none
  else findLinearId branchName

/-- `VALID_BRANCH_PREFIXES` (identical in both copies). -/
def VALID_BRANCH_PREFIXES : List Str :=
  [("feat".toList), ("fix".toList), ("chore".toList), ("docs".toList),
   ("refactor".toList), ("test".toList), ("research".toList)]

/-- `extractBranchPrefix` from the first copy of the branch utility module:
invalid or missing first segments silently default to `"feat"`. -/
def extractBranchPrefixA (branchName : Str) : Str :=
  if jsTrim branchName = [] then ("feat".toList)
  else
    let parts := branchName.splitOn '/'
    if parts = [] ∨ parts.headD [] = [] then ("feat".toList)
    else
      let pfx := (parts.headD []).map Char.toLower
      if pfx ∈ VALID_BRANCH_PREFIXES then pfx else ("feat".toList)

/-- `extractBranchPrefix` from the second copy: invalid or missing first
segments yield `null`. -/
def extractBranchPrefixB (branchName : Str) : Option Str :=
  if jsTrim branchName = [] then none
  else
    let parts := branchName.splitOn '/'
    if parts = [] ∨ parts.headD [] = [] then none
    else
      let pfx := (parts.headD []).map Char.toLower
      if pfx ∈ VALID_BRANCH_PREFIXES then some pfx else none

/-- The language of the regex `^[a-z0-9]+(-[a-z0-9]+)*$`: one or more
nonempty `[a-z0-9]` segments joined by single hyphens. -/
inductive BranchPat : Str → Prop
  | single (s : Str) (hne : s ≠ []) (hs : ∀ c ∈ s, isLowerAlnum c = true) : BranchPat s
  | more (s : Str) (rest : Str) (hne : s ≠ []) (hs : ∀ c ∈ s, isLowerAlnum c = true)
      (hrest : BranchPat rest) : BranchPat (s ++ '-' :: rest)

/-- Adjacent characters are never both hyphens. -/
def NoDD (a b : Char) : Prop := ¬(a = '-' ∧ b = '-')

/-! ## Linear label reconciliation and metadata update (`linear-client.ts`) -/

/-- A Linear team label: identifier and display name. -/
structure LinearLabel where
  id : Str
  name : Str
deriving DecidableEq, Repr

/-- The sparse payload built by `updateIssueMetadata` after its JS
truthiness checks (`if (dueDate)`, `if (projectId)`,
`if (labelIds && labelIds.length > 0)`). -/
structure UpdateInput where
  dueDate : Option Str
  projectId : Option Str
  labelIds : Option (List Str)
deriving DecidableEq, Repr

/-- One network operation performed against the Linear API, in call
order. -/
inductive ApiOp
  | getTeam (issueId : Str)
  | getLabels (teamId : Str)
  | createLabel (teamId : Str) (name : Str)
  | getIssue (issueId : Str)
  | updateIssue (issueId : Str) (input : UpdateInput)
deriving DecidableEq, Repr

/-- Responses of the Linear API as seen by these client methods: the
issue's team, a team's labels, the outcome of a label-creation mutation
(`none` covers both a GraphQL error response and a thrown exception, both
caught and logged by the source), the existence check of `client.issue`,
and the `success` field of the update mutation. -/
structure LinearEnv where
  teamOf : Str → Option Str
  labelsOf : Str → List LinearLabel
  createResult : Str → Str → Option Str
  issueExists : Str → Bool
  updateResult : Str → UpdateInput → Bool

/-- `l.name.toLowerCase() === labelName.toLowerCase()`. -/
def lcEq (a b : Str) : Bool := a.map Char.toLower == b.map Char.toLower

/-- `findOrCreateLabel`: first look for an existing label of the team by
case-insensitive name; only when none matches, send a creation mutation
(whose failure yields `none`).  Returns the label id and the operations
performed. -/
def findOrCreateLabel (env : LinearEnv) (teamId labelName : Str) :
    Option Str × List ApiOp :=
  match (env.labelsOf teamId).find? (fun l => lcEq l.name labelName) with
  | some l => (some l.id, [ApiOp.getLabels teamId])
  | none =>
    (env.createResult teamId labelName,
      [ApiOp.getLabels teamId, ApiOp.createLabel teamId labelName])

/-- The loop of `setIssueLabels` that resolves every requested name and
collects the ids of the successful resolutions. -/
def collectLabelIds (env : LinearEnv) (teamId : Str) : List Str → List Str × List ApiOp
  | [] => ([], [])
  | n :: rest =>
    let r := findOrCreateLabel env teamId n
    let tailRun := collectLabelIds env teamId rest
    ((match r.1 with | some i => i :: tailRun.1 | none => tailRun.1), r.2 ++ tailRun.2)

/-- JS `value || undefined` on an optional string. -/
def jsOrUndefined (s : Option Str) : Option Str :=
  match s with
  | some v => if v = [] then none else some v
  | none => none

/-- The update payload of `updateIssueMetadata`: each field is included
only when truthy (nonempty). -/
def buildUpdateInput (dueDate projectId : Option Str) (labelIds : Option (List Str)) :
    UpdateInput :=
  { dueDate := jsOrUndefined dueDate,
    projectId := jsOrUndefined projectId,
    labelIds := match labelIds with
      | some ids => if ids = [] then none else some ids
      | none => none }

/-- `updateIssueMetadata`: verify the issue exists, then send one update
mutation with the sparse payload; returns the mutation's success flag and
the operations performed. -/
def updateIssueMetadata (env : LinearEnv) (issueId : Str)
    (dueDate projectId : Option Str) (labelIds : Option (List Str)) :
    Bool × List ApiOp :=
  if env.issueExists issueId = false then (false, [ApiOp.getIssue issueId])
  else
    let input := buildUpdateInput dueDate projectId labelIds
    (env.updateResult issueId input,
      [ApiOp.getIssue issueId, ApiOp.updateIssue issueId input])

/-- `setIssueLabels`: resolve the team, find-or-create every label, then
issue a single label-assignment update carrying all collected ids (only
when at least one id was collected); on update failure or no ids, return
`[]`. -/
def setIssueLabels (env : LinearEnv) (issueId : Str) (labelNames : List Str) :
    List Str × List ApiOp :=
  match env.teamOf issueId with
  | none => ([], [ApiOp.getTeam issueId])
  | some teamId =>
    let col := collectLabelIds env teamId labelNames
    if col.1 = [] then (([] : List Str), ApiOp.getTeam issueId :: col.2)
    else
      let upd := updateIssueMetadata env issueId none none (some col.1)
      ((if upd.1 then col.1 else []), ApiOp.getTeam issueId :: col.2 ++ upd.2)

/-- Recognizer for the update mutation among the performed operations. -/
def isUpdateOp : ApiOp → Bool
  | ApiOp.updateIssue _ _ => true
  | _ => false

/-- The metadata phase of `createParentIssue` after a Linear issue id is
found (create-parent.ts): set labels when any were chosen, then always
call `updateIssueMetadata` with the due date and project. -/
def metadataPhase (env : LinearEnv) (linearIssueId : Str) (labels : List Str)
    (dueDate : Str) (linearProjectId : Option Str) : List ApiOp :=
  (if labels ≠ [] then (setIssueLabels env linearIssueId labels).2 else []) ++
  (updateIssueMetadata env linearIssueId
    (jsOrUndefined (some dueDate)) (jsOrUndefined linearProjectId) none).2

/-- Concrete Linear environment for closed instances: issue `I1` lives in
team `T1`, which has one existing label named `Fix`; creating a label
succeeds with id `L2`; updates succeed. -/
def envW : LinearEnv where
  teamOf := fun i => if i = ("I1".toList) then some ("T1".toList) else none
  labelsOf := fun t =>
    if t = ("T1".toList) then [{ id := ("L1".toList), name := ("Fix".toList) }] else []
  createResult := fun _ _ => some ("L2".toList)
  issueExists := fun _ => true
  updateResult := fun _ _ => true

/-- Concrete Linear environment where all label reconciliation fails: no
labels exist and label creation always fails. -/
def envFailW : LinearEnv where
  teamOf := fun _ => some ("T1".toList)
  labelsOf := fun _ => []
  createResult := fun _ _ => none
  issueExists := fun _ => true
  updateResult := fun _ _ => true

/-! ## GitHub project item lookup (`github-client.ts`, `getProjectItemId`) -/

/-- A ProjectV2 item: its id and the id of its issue content (`none` when
the content is not an issue). -/
structure ProjItem where
  itemId : Str
  contentId : Option Str
deriving DecidableEq, Repr

/-- Responses of the GitHub API: for each lookup round, the pages of the
project's item list (the pagination loop walks and concatenates them
all), or `none` when a query of that round throws. -/
structure GhEnv where
  rounds : Nat → Option (List (List ProjItem))

/-- What one round of `getProjectItemId` finds: the first item over all
pages of that round whose content id is the issue (`none` on a thrown
error or no match — the source treats both by retrying). -/
def lookupRound (env : GhEnv) (issueId : Str) (attempt : Nat) : Option Str :=
  match env.rounds attempt with
  | none => none
  | some pages =>
    (pages.flatten.find? (fun it => it.contentId == some issueId)).map (fun it => it.itemId)

/-- Trace of one `getProjectItemId` run: result, the rounds attempted in
order, the sleeps (ms) between consecutive rounds. -/
structure ItemLookupRun where
  result : Option Str
  roundsTried : List Nat
  sleeps : List Nat
deriving DecidableEq, Repr

/-- The retry loop of `getProjectItemId`: for `attempt = 1..maxRetries`,
search all pages; on a hit return that item id at once; otherwise, when
attempts remain, sleep `attempt * 1000` ms and retry; after the last
attempt return `none`.  `remaining` is structural fuel equal to
`maxRetries - attempt + 1`. -/
def getProjectItemIdGo (env : GhEnv) (issueId : Str) (maxRetries : Nat) :
    Nat → Nat → ItemLookupRun
  | 0, _ => { result := none, roundsTried := [], sleeps := [] }
  | remaining + 1, attempt =>
    match lookupRound env issueId attempt with
    | some itemId => { result := some itemId, roundsTried := [attempt], sleeps := [] }
    | none =>
      if attempt < maxRetries then
        let rest := getProjectItemIdGo env issueId maxRetries remaining (attempt + 1)
        { result := rest.result, roundsTried := attempt :: rest.roundsTried,
          sleeps := attempt * 1000 :: rest.sleeps }
      else { result := none, roundsTried := [attempt], sleeps := [] }

/-- The default retry count of `getProjectItemId`. -/
def ghMaxRetries : Nat := 3

/-- `getProjectItemId` with its default `maxRetries = 3`. -/
def getProjectItemId (env : GhEnv) (issueId : Str) : ItemLookupRun :=
  getProjectItemIdGo env issueId ghMaxRetries ghMaxRetries 1

/-- Concrete GitHub environment: the issue's item appears in round 2. -/
def ghEnvW : GhEnv where
  rounds := fun a =>
    if a = 2 then some [[{ itemId := ("IT1".toList), contentId := some ("ISS1".toList) }]]
    else some [[]]

/-- Concrete GitHub environment where the item never appears. -/
def ghEnvMissW : GhEnv where
  rounds := fun _ => some [[]]

/-! ## Create-parent preconditions (`commands/create-parent.ts`) -/

/-- The externally visible effects of `createParentIssue`, in order:
repository listing (read), the git unpushed-commit check (read), the
interactive detail prompts, project listing (read), GitHub issue creation
(the first external write), and everything after it (date fields, Linear
sync wait, metadata, branch creation). -/
inductive CliEffect
  | listRepositories
  | gitCheckUnpushed
  | promptDetails
  | listProjects
  | createGitHubIssue
  | postCreateFlow
deriving DecidableEq, Repr

/-- Effects that write to an external system. -/
def isExternalWrite : CliEffect → Bool
  | CliEffect.createGitHubIssue => true
  | CliEffect.postCreateFlow => true
  | _ => false

/-- The inputs of the precondition phase: the credential from the
environment and the unpushed-commit check result. -/
structure CliEnv where
  linearApiKey : Option Str
  hasUnpushed : Bool

/-- The control flow of `createParentIssue` up to issue creation: a
missing `LINEAR_API_KEY` exits 1 before any effect; unpushed commits exit
1 after the repository prompt and git check but before any issue is
created.  Second component: `some 1` models `process.exit(1)`, `none`
means the flow ran to completion. -/
def createParentIssue (env : CliEnv) : List CliEffect × Option Nat :=
  match env.linearApiKey with
  | none => ([], some 1)
  | some _ =>
    if env.hasUnpushed then
      ([CliEffect.listRepositories, CliEffect.gitCheckUnpushed], some 1)
    else
      ([CliEffect.listRepositories, CliEffect.gitCheckUnpushed, CliEffect.promptDetails,
        CliEffect.listProjects, CliEffect.createGitHubIssue, CliEffect.postCreateFlow], none)

section PollerTheorems

/-- If the first successful lookup happens `n` attempts after the starting
attempt `a` and the bound has not been reached, the loop performs exactly
`n + 1` queries, invokes `onRetry` on attempts `a, a+1, …, a+n-1` and sleeps
`n` times. -/
theorem waitGo_found (lookup : Nat → Option Str) (m d : Nat) (id : Str) :
    ∀ n a fuel, lookup (a + n) = some id →
      (∀ j, a ≤ j → j < a + n → lookup j = none) →
      a + n ≤ m → n + 1 ≤ fuel →
      waitGo lookup (some m) d fuel a =
        some { result := some id, queries := n + 1,
               retries := List.range' a n, sleeps := List.replicate n d } := by
  intro n
  induction n with
  | zero =>
    intro a fuel hfound _ _ hfuel
    obtain ⟨f, rfl⟩ : ∃ f, fuel = f + 1 := ⟨fuel - 1, by omega⟩
    rw [Nat.add_zero] at hfound
    simp [waitGo, hfound]
  | succ n ih =>
    intro a fuel hfound hmiss hle hfuel
    obtain ⟨f, rfl⟩ : ∃ f, fuel = f + 1 := ⟨fuel - 1, by omega⟩
    have hmissa : lookup a = none := hmiss a (le_refl a) (by omega)
    have hstop : stopNow (some m) a = false := by
      simp only [stopNow, decide_eq_false_iff_not]
      omega
    have hrec := ih (a + 1) f
      (by rw [show a + 1 + n = a + (n + 1) by omega]; exact hfound)
      (fun j h1 h2 => hmiss j (by omega) (by omega)) (by omega) (by omega)
    simp only [waitGo, hmissa, hstop, Bool.false_eq_true, if_false, hrec]
    simp [List.range'_succ, List.replicate_succ]

/-- If no lookup ever succeeds, the loop with bound `a + n`, started at
attempt `a`, performs exactly `n + 1` queries, then returns `none`. -/
theorem waitGo_exhaust (lookup : Nat → Option Str) (d : Nat)
    (hnone : ∀ j, lookup j = none) :
    ∀ n a fuel, n + 1 ≤ fuel →
      waitGo lookup (some (a + n)) d fuel a =
        some { result := none, queries := n + 1,
               retries := List.range' a n, sleeps := List.replicate n d } := by
  intro n
  induction n with
  | zero =>
    intro a fuel hfuel
    obtain ⟨f, rfl⟩ : ∃ f, fuel = f + 1 := ⟨fuel - 1, by omega⟩
    have hstop : stopNow (some a) a = true := by
      simp [stopNow]
    rw [Nat.add_zero]
    simp [waitGo, hnone a, hstop]
  | succ n ih =>
    intro a fuel hfuel
    obtain ⟨f, rfl⟩ : ∃ f, fuel = f + 1 := ⟨fuel - 1, by omega⟩
    have hstop : stopNow (some (a + (n + 1))) a = false := by
      simp only [stopNow, decide_eq_false_iff_not]
      omega
    have hrec := ih (a + 1) f (by omega)
    rw [show a + 1 + n = a + (n + 1) by omega] at hrec
    simp only [waitGo, hnone a, hstop, Bool.false_eq_true, if_false, hrec]
    simp [List.range'_succ, List.replicate_succ]

/-- Without a `maxAttempts` bound and with no successful lookup, no amount
of fuel makes the loop return. -/
theorem waitGo_unbounded (lookup : Nat → Option Str) (d : Nat)
    (hnone : ∀ j, lookup j = none) :
    ∀ fuel a, waitGo lookup none d fuel a = none := by
  intro fuel
  induction fuel with
  | zero => intro a; rfl
  | succ f ih =>
    intro a
    have hstop : stopNow none a = false := rfl
    simp [waitGo, hnone a, hstop, ih (a + 1)]

/-- C1: if `findIssueByGitHubUrl` first returns an issue id on attempt
`k ≤ maxAttempts`, then `waitForIssueByGitHubUrl` returns that id, performs
exactly `k` lookup queries (none after the success, no exit before attempt
`k`), and invokes `onRetry` exactly on attempts `1, …, k-1`, i.e. `k - 1`
times. -/
theorem waitForIssueByGitHubUrl_success_exact
    (lookup : Nat → Option Str) (m k : Nat) (id : Str) (dOpt : Option Nat) (fuel : Nat)
    (hk1 : 1 ≤ k) (hkm : k ≤ m) (hfound : lookup k = some id)
    (hbefore : ∀ j, 1 ≤ j → j < k → lookup j = none) (hfuel : k ≤ fuel) :
    waitForIssueByGitHubUrl lookup (some m) dOpt fuel =
      some { result := some id, queries := k, retries := List.range' 1 (k - 1),
             sleeps := List.replicate (k - 1) (dOpt.getD 5000) } := by
  have hk : k - 1 + 1 = k := by omega
  have h := waitGo_found lookup m (dOpt.getD 5000) id (k - 1) 1 fuel
    (by rw [show 1 + (k - 1) = k by omega]; exact hfound)
    (fun j h1 h2 => hbefore j h1 (by omega))
    (by omega) (by omega)
  unfold waitForIssueByGitHubUrl
  rw [h, hk]

/-- Closed instance of the C1 theorem: success on attempt 2 of at most 3. -/
theorem waitForIssueByGitHubUrl_success_exact_witness :
    waitForIssueByGitHubUrl (fun a => if a = 2 then some ['x'] else none) (some 3) none 10 =
      some { result := some ['x'], queries := 2, retries := [1], sleeps := [5000] } := by
  have h := waitForIssueByGitHubUrl_success_exact
      (fun a => if a = 2 then some ['x'] else none) 3 2 ['x'] none 10
      (by decide) (by decide) (by decide)
      (by intro j h1 h2
          have hj : j = 1 := by omega
          subst hj
          rfl)
      (by decide)
  exact h.trans (by decide)

/-- C2: if no lookup ever matches, the poller with bound `m ≥ 1` performs
exactly `m` queries, returns "not found" (`none`), and its total sleep time
is at most `m * intervalMs`; the create-parent orchestrator computes
`maxAttempts = floor(10000 / 500) + 1 = 21`. -/
theorem waitForIssueByGitHubUrl_notfound_exact
    (lookup : Nat → Option Str) (m : Nat) (dOpt : Option Nat) (fuel : Nat)
    (hm : 1 ≤ m) (hnone : ∀ j, lookup j = none) (hfuel : m ≤ fuel) :
    (waitForIssueByGitHubUrl lookup (some m) dOpt fuel =
      some { result := none, queries := m, retries := List.range' 1 (m - 1),
             sleeps := List.replicate (m - 1) (dOpt.getD 5000) }) ∧
    (List.replicate (m - 1) (dOpt.getD 5000)).sum ≤ m * dOpt.getD 5000 ∧
    linearSyncMaxAttempts = 21 := by
  refine ⟨?_, ?_, rfl⟩
  · have hk : m - 1 + 1 = m := by omega
    have h := waitGo_exhaust lookup (dOpt.getD 5000) hnone (m - 1) 1 fuel (by omega)
    rw [show 1 + (m - 1) = m by omega] at h
    unfold waitForIssueByGitHubUrl
    rw [h, hk]
  · rw [List.sum_replicate, smul_eq_mul]
    exact Nat.mul_le_mul_right _ (by omega)

/-- Closed instance of the C2 theorem: three misses with interval 7 ms. -/
theorem waitForIssueByGitHubUrl_notfound_exact_witness :
    (waitForIssueByGitHubUrl (fun _ => none) (some 3) (some 7) 5 =
      some { result := none, queries := 3, retries := [1, 2], sleeps := [7, 7] }) ∧
    (7 + (7 + 0) ≤ 3 * 7) ∧ linearSyncMaxAttempts = 21 := by
  have h := waitForIssueByGitHubUrl_notfound_exact (fun _ => none) 3 (some 7) 5
    (by decide) (fun j => rfl) (by decide)
  exact ⟨h.1.trans (by decide), by decide, h.2.2⟩

/-- C9: called without `maxAttempts` and with no lookup ever matching, the
loop never terminates — no finite fuel suffices — and the poll interval
defaults to 5000 ms when the `delayMs` option is omitted. -/
theorem waitForIssueByGitHubUrl_unbounded_diverges
    (lookup : Nat → Option Str) (dOpt : Option Nat)
    (hnone : ∀ j, lookup j = none) :
    (∀ fuel, waitForIssueByGitHubUrl lookup none dOpt fuel = none) ∧
    (∀ maxA fuel, waitForIssueByGitHubUrl lookup maxA none fuel =
      waitGo lookup maxA 5000 fuel 1) := by
  exact ⟨fun fuel => waitGo_unbounded lookup _ hnone fuel 1, fun _ _ => rfl⟩

/-- Closed instance of the C9 theorem. -/
theorem waitForIssueByGitHubUrl_unbounded_diverges_witness :
    waitForIssueByGitHubUrl (fun _ => none) none (some 7) 1000 = none ∧
    waitForIssueByGitHubUrl (fun _ => none) none none 4 =
      waitGo (fun _ => none) none 5000 4 1 := by
  have h := waitForIssueByGitHubUrl_unbounded_diverges (fun _ => none) (some 7) (fun j => rfl)
  exact ⟨h.1 1000, (waitForIssueByGitHubUrl_unbounded_diverges (fun _ => none) (some 7)
    (fun j => rfl)).2 none 4⟩

end PollerTheorems

section BranchTheorems

/-- The head of a `dropWhile` result never satisfies the predicate. -/
theorem head_dropWhile_false (p : Char → Bool) :
    ∀ (l : Str) c, (l.dropWhile p).head? = some c → p c = false := by
  intro l
  induction l with
  | nil => intro c h; simp at h
  | cons a rest ih =>
    intro c h
    by_cases hp : p a
    · rw [List.dropWhile_cons_of_pos hp] at h
      exact ih c h
    · rw [List.dropWhile_cons_of_neg hp] at h
      simp only [List.head?_cons, Option.some.injEq] at h
      subst h
      exact Bool.eq_false_iff.mpr hp

/-- Inside a run, the scanner behaves as if the rest of the run were
dropped. -/
theorem collapseRunsGo_true (p : Char → Bool) (r : Char) :
    ∀ l, collapseRunsGo p r true l = collapseRunsGo p r false (l.dropWhile p) := by
  intro l
  induction l with
  | nil => rfl
  | cons c rest ih =>
    by_cases hp : p c
    · rw [List.dropWhile_cons_of_pos hp]
      simp only [collapseRunsGo, hp, if_true]
      exact ih
    · rw [List.dropWhile_cons_of_neg hp]
      simp [collapseRunsGo, hp]

/-- Unfolding `collapseRuns` at a run character. -/
theorem collapseRuns_cons_pos {p : Char → Bool} {c : Char} (r : Char) (rest : Str)
    (hp : p c = true) :
    collapseRuns p r (c :: rest) = r :: collapseRuns p r (rest.dropWhile p) := by
  unfold collapseRuns
  simp only [collapseRunsGo, hp, if_true, if_false, Bool.false_eq_true]
  rw [collapseRunsGo_true]

/-- Unfolding `collapseRuns` at an ordinary character. -/
theorem collapseRuns_cons_neg {p : Char → Bool} {c : Char} (r : Char) (rest : Str)
    (hp : p c = false) :
    collapseRuns p r (c :: rest) = c :: collapseRuns p r rest := by
  unfold collapseRuns
  simp [collapseRunsGo, hp]

/-- Every character of a collapsed list is the replacement character or a
character of the input. -/
theorem collapseRuns_mem_aux (p : Char → Bool) (r : Char) :
    ∀ n l, l.length ≤ n → ∀ c, c ∈ collapseRuns p r l → c = r ∨ c ∈ l := by
  intro n
  induction n with
  | zero =>
    intro l hl c hc
    obtain rfl : l = [] := List.length_eq_zero.mp (Nat.le_zero.mp hl)
    simp [collapseRuns, collapseRunsGo] at hc
  | succ n ih =>
    intro l hl c hc
    match l with
    | [] => simp [collapseRuns, collapseRunsGo] at hc
    | a :: rest =>
      simp only [List.length_cons, Nat.add_le_add_iff_right] at hl
      by_cases hp : p a
      · rw [collapseRuns_cons_pos r rest hp] at hc
        rcases List.mem_cons.mp hc with h | h
        · exact Or.inl h
        · rcases ih (rest.dropWhile p)
            (le_trans (List.dropWhile_suffix p).length_le hl) c h with h' | h'
          · exact Or.inl h'
          · exact Or.inr (List.mem_cons_of_mem a ((List.dropWhile_suffix p).subset h'))
      · rw [collapseRuns_cons_neg r rest (Bool.eq_false_iff.mpr hp)] at hc
        rcases List.mem_cons.mp hc with h | h
        · exact Or.inr (h ▸ List.mem_cons_self a rest)
        · rcases ih rest hl c h with h' | h'
          · exact Or.inl h'
          · exact Or.inr (List.mem_cons_of_mem a h')

/-- If the input does not start with a hyphen, neither does the
hyphen-collapsed output. -/
theorem collapseHy_head_ne (l : Str) (h : ∀ c, l.head? = some c → c ≠ '-') :
    ∀ c, (collapseRuns isHy '-' l).head? = some c → c ≠ '-' := by
  intro c hc
  match l with
  | [] => simp [collapseRuns, collapseRunsGo] at hc
  | a :: rest =>
    have ha : a ≠ '-' := h a rfl
    have hp : isHy a = false := by simp [isHy, ha]
    rw [collapseRuns_cons_neg '-' rest hp] at hc
    simp only [List.head?_cons, Option.some.injEq] at hc
    subst hc
    exact ha

/-- Collapsing hyphen runs leaves no two adjacent hyphens. -/
theorem collapseHy_chain_aux :
    ∀ n (l : Str), l.length ≤ n → List.Chain' NoDD (collapseRuns isHy '-' l) := by
  intro n
  induction n with
  | zero =>
    intro l hl
    obtain rfl : l = [] := List.length_eq_zero.mp (Nat.le_zero.mp hl)
    simp [collapseRuns, collapseRunsGo]
  | succ n ih =>
    intro l hl
    match l with
    | [] => simp [collapseRuns, collapseRunsGo]
    | a :: rest =>
      simp only [List.length_cons, Nat.add_le_add_iff_right] at hl
      by_cases hp : isHy a
      · rw [collapseRuns_cons_pos '-' rest hp]
        rw [List.chain'_cons']
        refine ⟨?_, ih _ (le_trans (List.dropWhile_suffix isHy).length_le hl)⟩
        intro y hy
        have hy' : y ≠ '-' := by
          refine collapseHy_head_ne (rest.dropWhile isHy) ?_ y hy
          intro c hc
          have := head_dropWhile_false isHy rest c hc
          simpa [isHy] using this
        exact fun hcon => hy' hcon.2
      · rw [collapseRuns_cons_neg '-' rest (Bool.eq_false_iff.mpr hp)]
        rw [List.chain'_cons']
        refine ⟨?_, ih rest hl⟩
        intro y _
        have ha : a ≠ '-' := by simpa [isHy] using hp
        exact fun hcon => ha hcon.1

/-- A prefix that starts keeps the head of the longer list. -/
theorem headOfPre {l₁ l₂ : Str} (h : l₁ <+: l₂) {c : Char}
    (hc : l₁.head? = some c) : l₂.head? = some c := by
  obtain ⟨t, rfl⟩ := h
  cases l₁ with
  | nil => simp at hc
  | cons a r => simpa using hc

/-- `dropTrailingHyphens l` is a prefix of `l`. -/
theorem dropTrailingHyphens_pre (l : Str) : dropTrailingHyphens l <+: l := by
  refine ⟨(l.reverse.takeWhile isHy).reverse, ?_⟩
  rw [dropTrailingHyphens, ← List.reverse_append, List.takeWhile_append_dropWhile,
    List.reverse_reverse]

/-- `dropTrailingHyphens l` does not end in a hyphen. -/
theorem dropTrailingHyphens_last (l : Str) :
    ∀ c, (dropTrailingHyphens l).getLast? = some c → c ≠ '-' := by
  intro c hc
  rw [List.getLast?_eq_head?_reverse, dropTrailingHyphens, List.reverse_reverse] at hc
  have := head_dropWhile_false isHy l.reverse c hc
  simpa [isHy] using this

/-- A nonempty list over `[a-z0-9-]` with no hyphen at either end and no
two adjacent hyphens is in the language of `^[a-z0-9]+(-[a-z0-9]+)*$`. -/
theorem branchPat_of_conditions :
    ∀ n (l : Str), l.length ≤ n → l ≠ [] →
      (∀ c ∈ l, isLowerAlnum c = true ∨ c = '-') →
      (∀ c, l.head? = some c → c ≠ '-') →
      (∀ c, l.getLast? = some c → c ≠ '-') →
      List.Chain' NoDD l → BranchPat l := by
  intro n
  induction n with
  | zero =>
    intro l hl hne _ _ _ _
    exact absurd (List.length_eq_zero.mp (Nat.le_zero.mp hl)) hne
  | succ n ih =>
    intro l hl hne hmem hhead hlast hchain
    obtain ⟨a, rest, rfl⟩ : ∃ a rest, l = a :: rest := by
      cases l with
      | nil => exact absurd rfl hne
      | cons a rest => exact ⟨a, rest, rfl⟩
    have ha_ne : a ≠ '-' := hhead a rfl
    have ha : isLowerAlnum a = true := by
      rcases hmem a (List.mem_cons_self a rest) with h | h
      · exact h
      · exact absurd h ha_ne
    have hsplit := List.takeWhile_append_dropWhile (p := isLowerAlnum) (l := a :: rest)
    have hs_ne : (a :: rest).takeWhile isLowerAlnum ≠ [] := by
      rw [List.takeWhile_cons_of_pos ha]
      exact List.cons_ne_nil a _
    have hs_mem : ∀ c ∈ (a :: rest).takeWhile isLowerAlnum, isLowerAlnum c = true :=
      fun c hc => List.mem_takeWhile_imp hc
    match hdrop : (a :: rest).dropWhile isLowerAlnum with
    | [] =>
      rw [hdrop, List.append_nil] at hsplit
      rw [← hsplit]
      exact BranchPat.single _ hs_ne hs_mem
    | d :: t =>
      have hd_not : isLowerAlnum d = false := by
        refine head_dropWhile_false isLowerAlnum (a :: rest) d ?_
        rw [hdrop]; rfl
      have hd_mem : d ∈ a :: rest := by
        have : d ∈ (a :: rest).dropWhile isLowerAlnum := by
          rw [hdrop]; exact List.mem_cons_self d t
        exact (List.dropWhile_suffix isLowerAlnum).subset this
      have hd : d = '-' := by
        rcases hmem d hd_mem with h | h
        · rw [h] at hd_not; simp at hd_not
        · exact h
      subst hd
      rw [hdrop] at hsplit
      match t with
      | [] =>
        exfalso
        have : (a :: rest).getLast? = some '-' := by
          rw [← hsplit]
          exact List.getLast?_concat _
        exact hlast '-' this rfl
      | x :: xs =>
        have hassoc : (a :: rest) =
            ((a :: rest).takeWhile isLowerAlnum ++ ['-']) ++ (x :: xs) := by
          conv_lhs => rw [← hsplit]
          simp
        have hchain2 := hchain
        rw [hassoc] at hchain2
        obtain ⟨hcl, hcr, hcross⟩ := List.chain'_append.mp hchain2
        have hx_ne : ∀ c, (x :: xs).head? = some c → c ≠ '-' := by
          intro c hc hcdash
          simp only [List.head?_cons, Option.some.injEq] at hc
          have hdash : ((a :: rest).takeWhile isLowerAlnum ++ ['-']).getLast? = some '-' :=
            List.getLast?_concat _
          exact hcross '-' hdash c (by simp [hc]) ⟨rfl, hcdash⟩
        have hsub : ∀ c ∈ (x :: xs), c ∈ a :: rest := by
          intro c hc
          rw [hassoc]
          exact List.mem_append_right _ hc
        have hlast2 : ∀ c, (x :: xs).getLast? = some c → c ≠ '-' := by
          intro c hc
          refine hlast c ?_
          rw [hassoc, List.getLast?_append, hc]
          rfl
        have hlen : (x :: xs).length ≤ n := by
          have h1 : 0 < ((a :: rest).takeWhile isLowerAlnum).length :=
            List.length_pos.mpr hs_ne
          have h2 := congrArg List.length hsplit
          simp only [List.length_cons, List.length_append] at h2 hl
          simp only [List.length_cons]
          omega
        have hpat := ih (x :: xs) hlen (List.cons_ne_nil x xs)
          (fun c hc => hmem c (hsub c hc)) hx_ne hlast2 hcr
        have hfin := BranchPat.more ((a :: rest).takeWhile isLowerAlnum) (x :: xs)
          hs_ne hs_mem hpat
        rwa [hsplit] at hfin

/-- The hyphen-trimmed list does not start with a hyphen. -/
theorem trimHyphens_head (l : Str) :
    ∀ c, (trimHyphens l).head? = some c → c ≠ '-' := by
  intro c hc
  have h1 : (l.dropWhile isHy).head? = some c :=
    headOfPre (dropTrailingHyphens_pre (l.dropWhile isHy)) hc
  have := head_dropWhile_false isHy l c h1
  simpa [isHy] using this

/-- The hyphen-trimmed list does not end with a hyphen. -/
theorem trimHyphens_last (l : Str) :
    ∀ c, (trimHyphens l).getLast? = some c → c ≠ '-' :=
  fun c hc => dropTrailingHyphens_last (l.dropWhile isHy) c hc

/-- Trimming preserves the no-adjacent-hyphens invariant. -/
theorem trimHyphens_chain {l : Str} (h : List.Chain' NoDD l) :
    List.Chain' NoDD (trimHyphens l) :=
  List.Chain'.prefix (List.Chain'.suffix h (List.dropWhile_suffix isHy))
    (dropTrailingHyphens_pre _)

/-- Trimming only removes characters. -/
theorem trimHyphens_subset (l : Str) : ∀ c ∈ trimHyphens l, c ∈ l :=
  fun c hc => (List.dropWhile_suffix isHy).subset
    ((dropTrailingHyphens_pre (l.dropWhile isHy)).subset hc)

/-- The final truncation step preserves all shape facts and bounds the
length by 50. -/
theorem truncate_props (s4 : Str)
    (hmem : ∀ c ∈ s4, isLowerAlnum c = true ∨ c = '-')
    (hhead : ∀ c, s4.head? = some c → c ≠ '-')
    (hlast : ∀ c, s4.getLast? = some c → c ≠ '-')
    (hchain : List.Chain' NoDD s4)
    (hle : ¬50 < s4.length → s4.length ≤ 50) :
    (∀ c ∈ (if 50 < s4.length then dropTrailingHyphens (s4.take 50) else s4),
        isLowerAlnum c = true ∨ c = '-') ∧
    (∀ c, (if 50 < s4.length then dropTrailingHyphens (s4.take 50) else s4).head? =
        some c → c ≠ '-') ∧
    (∀ c, (if 50 < s4.length then dropTrailingHyphens (s4.take 50) else s4).getLast? =
        some c → c ≠ '-') ∧
    List.Chain' NoDD (if 50 < s4.length then dropTrailingHyphens (s4.take 50) else s4) ∧
    (if 50 < s4.length then dropTrailingHyphens (s4.take 50) else s4).length ≤ 50 := by
  by_cases h50 : 50 < s4.length
  · simp only [if_pos h50]
    have hpre : dropTrailingHyphens (s4.take 50) <+: s4 :=
      (dropTrailingHyphens_pre _).trans (List.take_prefix _ _)
    refine ⟨?_, ?_, ?_, ?_, ?_⟩
    · exact fun c hc => hmem c (hpre.subset hc)
    · exact fun c hc => hhead c (headOfPre hpre hc)
    · exact fun c hc => dropTrailingHyphens_last _ c hc
    · exact hchain.prefix hpre
    · have h1 : (dropTrailingHyphens (s4.take 50)).length ≤ (s4.take 50).length :=
        (dropTrailingHyphens_pre _).length_le
      have h2 : (s4.take 50).length ≤ 50 := by
        simpa [List.length_take] using Nat.min_le_left 50 s4.length
      omega
  · simp only [if_neg h50]
    exact ⟨hmem, hhead, hlast, hchain, hle h50⟩

/-- All shape facts of the full sanitizer pipeline. -/
theorem sanitizeBranchName_props (title : Str) :
    (∀ c ∈ sanitizeBranchName title, isLowerAlnum c = true ∨ c = '-') ∧
    (∀ c, (sanitizeBranchName title).head? = some c → c ≠ '-') ∧
    (∀ c, (sanitizeBranchName title).getLast? = some c → c ≠ '-') ∧
    List.Chain' NoDD (sanitizeBranchName title) ∧
    (sanitizeBranchName title).length ≤ 50 := by
  by_cases htrim : jsTrim title = []
  · unfold sanitizeBranchName
    rw [if_pos htrim]
    simp
  · have heq : sanitizeBranchName title =
        (if 50 < (trimHyphens (collapseRuns isHy '-'
            ((collapseRuns isJsWhitespace '-' (title.map Char.toLower)).filter
              (fun c => isLowerAlnum c || isHy c)))).length
         then dropTrailingHyphens ((trimHyphens (collapseRuns isHy '-'
            ((collapseRuns isJsWhitespace '-' (title.map Char.toLower)).filter
              (fun c => isLowerAlnum c || isHy c)))).take 50)
         else trimHyphens (collapseRuns isHy '-'
            ((collapseRuns isJsWhitespace '-' (title.map Char.toLower)).filter
              (fun c => isLowerAlnum c || isHy c)))) := by
      unfold sanitizeBranchName
      rw [if_neg htrim]
    rw [heq]
    have hmem3 : ∀ c ∈ collapseRuns isHy '-'
        ((collapseRuns isJsWhitespace '-' (title.map Char.toLower)).filter
          (fun c => isLowerAlnum c || isHy c)), isLowerAlnum c = true ∨ c = '-' := by
      intro c hc
      rcases collapseRuns_mem_aux isHy '-' _ _ le_rfl c hc with h | h
      · exact Or.inr h
      · have hkeep := List.of_mem_filter h
        rcases (by simpa using hkeep : isLowerAlnum c = true ∨ isHy c = true) with h' | h'
        · exact Or.inl h'
        · exact Or.inr (by simpa [isHy] using h')
    refine truncate_props _ ?_ (trimHyphens_head _) (trimHyphens_last _)
      (trimHyphens_chain (collapseHy_chain_aux _ _ le_rfl)) (fun h => by omega)
    exact fun c hc => hmem3 c (trimHyphens_subset _ c hc)

/-- C3: for every title, the sanitized branch segment is empty or lies in
the language of `^[a-z0-9]+(-[a-z0-9]+)*$`; its length is at most 50; and
it has no leading, trailing or doubled hyphens, including after the
50-character truncation. -/
theorem sanitizeBranchName_correct (title : Str) :
    (sanitizeBranchName title = [] ∨ BranchPat (sanitizeBranchName title)) ∧
    (sanitizeBranchName title).length ≤ 50 ∧
    (∀ c, (sanitizeBranchName title).head? = some c → c ≠ '-') ∧
    (∀ c, (sanitizeBranchName title).getLast? = some c → c ≠ '-') ∧
    List.Chain' NoDD (sanitizeBranchName title) := by
  obtain ⟨hmem, hhead, hlast, hchain, hlen⟩ := sanitizeBranchName_props title
  refine ⟨?_, hlen, hhead, hlast, hchain⟩
  by_cases hne : sanitizeBranchName title = []
  · exact Or.inl hne
  · exact Or.inr (branchPat_of_conditions (sanitizeBranchName title).length _
      le_rfl hne hmem hhead hlast hchain)

/-- Spec example: `sanitize("Hello   World!!")` is `"hello-world"`. -/
theorem sanitizeBranchName_example_hello :
    sanitizeBranchName ("Hello   World!!".toList) = ("hello-world".toList) := by
  decide

/-- Spec example: sixty `'a'`s truncate to fifty with no trailing hyphen. -/
theorem sanitizeBranchName_example_truncate :
    sanitizeBranchName (List.replicate 60 'a') = List.replicate 50 'a' := by
  decide

/-- If `trim` empties a list, every character was whitespace. -/
theorem jsTrim_nil_all_ws {l : Str} (h : jsTrim l = []) :
    ∀ c ∈ l, isJsWhitespace c = true := by
  intro c hc
  unfold jsTrim at h
  have h1 : (l.dropWhile isJsWhitespace).reverse.dropWhile isJsWhitespace = [] := by
    have h2 := congrArg List.reverse h
    rwa [List.reverse_reverse, List.reverse_nil] at h2
  have h2 : ∀ x ∈ (l.dropWhile isJsWhitespace).reverse, isJsWhitespace x = true :=
    List.dropWhile_eq_nil_iff.mp h1
  have h3 : ∀ x ∈ l.dropWhile isJsWhitespace, isJsWhitespace x = true :=
    fun x hx => h2 x (List.mem_reverse.mpr hx)
  have hc2 : c ∈ l.takeWhile isJsWhitespace ++ l.dropWhile isJsWhitespace := by
    rw [List.takeWhile_append_dropWhile]
    exact hc
  rcases List.mem_append.mp hc2 with h4 | h4
  · exact List.mem_takeWhile_imp h4
  · exact h3 c h4

/-- JS whitespace characters are fixed points of `toLowerCase`. -/
theorem ws_toLower_fixed {c : Char} (h : isJsWhitespace c = true) :
    Char.toLower c = c := by
  unfold isJsWhitespace at h
  have hn := of_decide_eq_true h
  have hcond : ¬(c.toNat ≥ 65 ∧ c.toNat ≤ 90) := by
    rcases hn with h|h|h|h|h|h|h|h|h|h|h|h|h|h|h|h|h|h|h|h|h|h|h|h|h <;> omega
  simp only [Char.toLower]
  rw [if_neg hcond]

/-- A list of whitespace characters never lowercases onto a list whose
head is a non-whitespace character. -/
theorem map_toLower_ne_of_ws {l v : Str} (hws : ∀ c ∈ l, isJsWhitespace c = true)
    (h0 : Char) (hv : v.head? = some h0) (h0ws : isJsWhitespace h0 = false) :
    l.map Char.toLower ≠ v := by
  intro heq
  have hh := congrArg List.head? heq
  rw [List.head?_map, hv] at hh
  match hl : l.head? with
  | none => rw [hl] at hh; simp at hh
  | some c =>
    rw [hl] at hh
    simp only [Option.map_some', Option.some.injEq] at hh
    have hcl : c ∈ l := List.mem_of_mem_head? (by simp [hl])
    have hwsc := hws c hcl
    rw [ws_toLower_fixed hwsc] at hh
    rw [hh] at hwsc
    rw [hwsc] at h0ws
    exact absurd h0ws (by simp)

/-- An all-whitespace segment never lowercases into the valid prefix
list. -/
theorem ws_map_notmem_valid {l : Str} (hws : ∀ c ∈ l, isJsWhitespace c = true) :
    l.map Char.toLower ∉ VALID_BRANCH_PREFIXES := by
  intro hmem
  simp only [VALID_BRANCH_PREFIXES, List.mem_cons, List.not_mem_nil, or_false] at hmem
  rcases hmem with h|h|h|h|h|h|h
  · exact map_toLower_ne_of_ws hws 'f' (by rfl) (by decide) h
  · exact map_toLower_ne_of_ws hws 'f' (by rfl) (by decide) h
  · exact map_toLower_ne_of_ws hws 'c' (by rfl) (by decide) h
  · exact map_toLower_ne_of_ws hws 'd' (by rfl) (by decide) h
  · exact map_toLower_ne_of_ws hws 'r' (by rfl) (by decide) h
  · exact map_toLower_ne_of_ws hws 't' (by rfl) (by decide) h
  · exact map_toLower_ne_of_ws hws 'r' (by rfl) (by decide) h

/-- The head of `split('/')` is the segment before the first `'/'`. -/
theorem splitOn_headD_eq (l : Str) :
    (l.splitOn '/').headD [] = l.takeWhile (fun c => !(c == '/')) := by
  induction l with
  | nil => rfl
  | cons c rest ih =>
    simp only [List.splitOn] at ih ⊢
    rw [List.splitOnP_cons]
    by_cases hc : c = '/'
    · subst hc
      rw [if_pos (by simp)]
      simp [List.takeWhile_cons]
    · rw [if_neg (by simp [hc])]
      match hsp : rest.splitOnP (· == '/') with
      | [] => exact absurd hsp (List.splitOnP_ne_nil _ rest)
      | y :: ys =>
        rw [hsp] at ih
        simp only [List.modifyHead_cons, List.headD_cons] at ih ⊢
        rw [List.takeWhile_cons, if_pos (by simp [hc])]
        rw [ih]

/-- C4: the two `extractBranchPrefix` variants relate as follows on every
input: the silent-default variant equals the optional variant with default
`"feat"`, and the optional variant returns the lowercased first segment
exactly when that segment is, case-insensitively, one of the seven valid
prefixes, and `none` otherwise (so on invalid, missing or empty segments
one variant returns `"feat"` and the other returns no value). -/
theorem extractBranchPrefix_variants (b : Str) :
    extractBranchPrefixA b = (extractBranchPrefixB b).getD ("feat".toList) ∧
    extractBranchPrefixB b =
      (if (b.takeWhile (fun c => !(c == '/'))).map Char.toLower ∈ VALID_BRANCH_PREFIXES
       then some ((b.takeWhile (fun c => !(c == '/'))).map Char.toLower)
       else none) := by
  by_cases htrim : jsTrim b = []
  · have hws := jsTrim_nil_all_ws htrim
    have hnot : (b.takeWhile (fun c => !(c == '/'))).map Char.toLower ∉
        VALID_BRANCH_PREFIXES := by
      refine ws_map_notmem_valid ?_
      intro c hc
      exact hws c ((List.takeWhile_prefix _).subset hc)
    unfold extractBranchPrefixA extractBranchPrefixB
    rw [if_pos htrim, if_pos htrim, if_neg hnot]
    exact ⟨rfl, rfl⟩
  · have hhead := splitOn_headD_eq b
    simp only [extractBranchPrefixA, extractBranchPrefixB]
    rw [if_neg htrim, if_neg htrim, ← hhead]
    by_cases hguard : b.splitOn '/' = [] ∨ (b.splitOn '/').headD [] = []
    · rw [if_pos hguard, if_pos hguard]
      have htw : (b.splitOn '/').headD [] = [] := by
        rcases hguard with h | h
        · exact absurd h (by simpa [List.splitOn] using List.splitOnP_ne_nil (· == '/') b)
        · exact h
      rw [htw, if_neg (by decide)]
      exact ⟨rfl, rfl⟩
    · rw [if_neg hguard, if_neg hguard]
      by_cases hv : ((b.splitOn '/').headD []).map Char.toLower ∈ VALID_BRANCH_PREFIXES
      · rw [if_pos hv, if_pos hv]
        exact ⟨rfl, rfl⟩
      · rw [if_neg hv, if_neg hv]
        exact ⟨rfl, rfl⟩

/-- `takeWhile` passes over a block of characters that all satisfy the
predicate. -/
theorem takeWhile_append_all {p : Char → Bool} :
    ∀ (xs ys : Str), (∀ c ∈ xs, p c = true) →
      (xs ++ ys).takeWhile p = xs ++ ys.takeWhile p := by
  intro xs
  induction xs with
  | nil => intro ys _; rfl
  | cons a rest ih =>
    intro ys h
    rw [List.cons_append, List.takeWhile_cons_of_pos (h a (List.mem_cons_self a rest)),
      ih ys (fun c hc => h c (List.mem_cons_of_mem a hc)), List.cons_append]

/-- `takeWhile` stops immediately at a failing head. -/
theorem takeWhile_nil_of_head {p : Char → Bool} (l : Str)
    (h : ∀ c, l.head? = some c → p c = false) : l.takeWhile p = [] := by
  match l with
  | [] => rfl
  | c :: rest =>
    exact List.takeWhile_cons_of_neg (by simp [h c rfl])

/-- The leftmost-match scan skips any prefix with no uppercase letter. -/
theorem findLinearId_skip :
    ∀ (xs ys : Str), (∀ c ∈ xs, isUpperAlpha c = false) →
      findLinearId (xs ++ ys) = findLinearId ys := by
  intro xs
  induction xs with
  | nil => intro ys _; rfl
  | cons a rest ih =>
    intro ys h
    have ha : isUpperAlpha a = false := h a (List.mem_cons_self a rest)
    have hm : matchLinearIdHere (a :: (rest ++ ys)) = none := by
      unfold matchLinearIdHere
      rw [List.takeWhile_cons_of_neg (by simp [ha])]
      rw [if_pos rfl]
    rw [List.cons_append, findLinearId, hm]
    exact ih ys (fun c hc => h c (List.mem_cons_of_mem a hc))

/-- A successful anchored match is returned by the scan at once. -/
theorem findLinearId_of_match {l m : Str} (hne : l ≠ [])
    (hm : matchLinearIdHere l = some m) : findLinearId l = some m := by
  match l with
  | [] => exact absurd rfl hne
  | c :: rest => rw [findLinearId, hm]

/-- The anchored matcher at `[A-Z]+-\d+` followed by a non-digit boundary
returns exactly the identifier. -/
theorem matchLinearIdHere_at_id (ls ds tail2 : Str)
    (hls : ls ≠ []) (hlsu : ∀ c ∈ ls, isUpperAlpha c = true)
    (hds : ds ≠ []) (hdsd : ∀ c ∈ ds, isDigitChar c = true)
    (htail : ∀ c, tail2.head? = some c → isDigitChar c = false) :
    matchLinearIdHere (ls ++ '-' :: (ds ++ tail2)) = some (ls ++ '-' :: ds) := by
  unfold matchLinearIdHere
  have h1 : (ls ++ '-' :: (ds ++ tail2)).takeWhile isUpperAlpha = ls := by
    rw [takeWhile_append_all ls _ hlsu, List.takeWhile_cons_of_neg (by decide),
      List.append_nil]
  have h2 : (ls ++ '-' :: (ds ++ tail2)).dropWhile isUpperAlpha = '-' :: (ds ++ tail2) := by
    have h3 := List.takeWhile_append_dropWhile (p := isUpperAlpha)
      (l := ls ++ '-' :: (ds ++ tail2))
    rw [h1] at h3
    exact List.append_cancel_left (by rw [h3])
  rw [h1, if_neg hls, h2]
  have h4 : (ds ++ tail2).takeWhile isDigitChar = ds := by
    rw [takeWhile_append_all ds tail2 hdsd, takeWhile_nil_of_head tail2 htail,
      List.append_nil]
  simp only [h4, if_neg hds]

/-- Characters surviving the owner sanitizer are lowercase alphanumerics
or hyphens. -/
theorem sanitizeBranchOwner_mem (o : Str) :
    ∀ c ∈ sanitizeBranchOwner o, isLowerAlnum c = true ∨ c = '-' := by
  intro c hc
  unfold sanitizeBranchOwner at hc
  by_cases h : jsTrim o = []
  · rw [if_pos h] at hc
    simp at hc
  · rw [if_neg h] at hc
    have hc2 := trimHyphens_subset _ c hc
    rcases collapseRuns_mem_aux isHy '-' _ _ le_rfl c hc2 with h' | h'
    · exact Or.inr h'
    · have hk := List.of_mem_filter h'
      rcases (by simpa using hk : isLowerAlnum c = true ∨ isHy c = true) with h'' | h''
      · exact Or.inl h''
      · exact Or.inr (by simpa [isHy] using h'')

/-- Lowercase alphanumerics and hyphens are not uppercase letters. -/
theorem not_upper_of_lower (c : Char) (h : isLowerAlnum c = true ∨ c = '-') :
    isUpperAlpha c = false := by
  rw [Bool.eq_false_iff]
  intro hcon
  simp only [isUpperAlpha, Bool.and_eq_true, decide_eq_true_eq] at hcon
  rcases h with h | h
  · simp only [isLowerAlnum, Bool.or_eq_true, Bool.and_eq_true, decide_eq_true_eq] at h
    rcases h with ⟨h1, h2⟩ | ⟨h1, h2⟩ <;> omega
  · subst h
    have hv : ('-' : Char).toNat = 45 := rfl
    omega

/-- On a name containing a `'/'` (hence not whitespace-only), extraction
is the leftmost-match scan. -/
theorem extractLinearIssueId_eq_find {l : Str} (hc : '/' ∈ l) :
    extractLinearIssueId l = findLinearId l := by
  have hne : ¬jsTrim l = [] := by
    intro hj
    have := jsTrim_nil_all_ws hj '/' hc
    simp [isJsWhitespace] at this
  unfold extractLinearIssueId
  rw [if_neg hne]

/-- C10: for every owner, title, and Linear identifier of the exact shape
`[A-Z]+-[0-9]+`, extraction inverts generation: the sanitized owner
segment (or its `"user"` fallback), the `'/'`, and the sanitized title
contain no uppercase letter, so the identifier is the leftmost match of
the extraction pattern and is returned whole. -/
theorem extract_generate_roundtrip (owner title ls ds : Str)
    (hls : ls ≠ []) (hlsu : ∀ c ∈ ls, isUpperAlpha c = true)
    (hds : ds ≠ []) (hdsd : ∀ c ∈ ds, isDigitChar c = true) :
    extractLinearIssueId (generateBranchName owner (ls ++ '-' :: ds) title) =
      some (ls ++ '-' :: ds) := by
  have howmem : ∀ c ∈ (if sanitizeBranchOwner owner = [] then ("user".toList)
      else sanitizeBranchOwner owner), isLowerAlnum c = true ∨ c = '-' := by
    by_cases h : sanitizeBranchOwner owner = []
    · rw [if_pos h]
      intro c hc
      fin_cases hc <;> exact Or.inl (by decide)
    · rw [if_neg h]
      exact sanitizeBranchOwner_mem owner
  have hseg : ∀ c ∈ ((if sanitizeBranchOwner owner = [] then ("user".toList)
      else sanitizeBranchOwner owner) ++ ['/']), isUpperAlpha c = false := by
    intro c hc
    rcases List.mem_append.mp hc with h | h
    · exact not_upper_of_lower c (howmem c h)
    · have : c = '/' := by simpa using h
      subst this
      decide
  by_cases ht : sanitizeBranchName title = []
  · have hbr : generateBranchName owner (ls ++ '-' :: ds) title =
        ((if sanitizeBranchOwner owner = [] then ("user".toList)
          else sanitizeBranchOwner owner) ++ ['/']) ++ (ls ++ '-' :: (ds ++ [])) := by
      unfold generateBranchName
      rw [if_pos ht]
      simp
    have hmatch := matchLinearIdHere_at_id ls ds [] hls hlsu hds hdsd
      (fun c hc => by simp at hc)
    have hsl : ('/' : Char) ∈ ((if sanitizeBranchOwner owner = [] then ("user".toList)
        else sanitizeBranchOwner owner) ++ ['/']) ++ (ls ++ '-' :: (ds ++ [])) :=
      List.mem_append_left _ (List.mem_append_right _ (List.mem_singleton.mpr rfl))
    rw [hbr, extractLinearIssueId_eq_find hsl, findLinearId_skip _ _ hseg,
      findLinearId_of_match (by simp [hls]) hmatch]
  · have hbr : generateBranchName owner (ls ++ '-' :: ds) title =
        ((if sanitizeBranchOwner owner = [] then ("user".toList)
          else sanitizeBranchOwner owner) ++ ['/']) ++
          (ls ++ '-' :: (ds ++ '-' :: sanitizeBranchName title)) := by
      unfold generateBranchName
      rw [if_neg ht]
      simp
    have hmatch := matchLinearIdHere_at_id ls ds ('-' :: sanitizeBranchName title)
      hls hlsu hds hdsd
      (fun c hc => by
        simp only [List.head?_cons, Option.some.injEq] at hc
        subst hc
        decide)
    have hsl : ('/' : Char) ∈ ((if sanitizeBranchOwner owner = [] then ("user".toList)
        else sanitizeBranchOwner owner) ++ ['/']) ++
        (ls ++ '-' :: (ds ++ '-' :: sanitizeBranchName title)) :=
      List.mem_append_left _ (List.mem_append_right _ (List.mem_singleton.mpr rfl))
    rw [hbr, extractLinearIssueId_eq_find hsl, findLinearId_skip _ _ hseg,
      findLinearId_of_match (by simp [hls]) hmatch]

/-- Closed instance of the C10 theorem on a concrete owner, identifier and
title. -/
theorem extract_generate_roundtrip_witness :
    extractLinearIssueId (generateBranchName ("Negoth!".toList)
        (("LEA".toList) ++ '-' :: ("123".toList)) ("Fix Login Bug".toList)) =
      some (("LEA".toList) ++ '-' :: ("123".toList)) := by
  exact extract_generate_roundtrip ("Negoth!".toList) ("Fix Login Bug".toList)
    ("LEA".toList) ("123".toList) (by decide) (by decide) (by decide) (by decide)

end BranchTheorems

section LinearTheorems

/-- The collection loop performs only label reads and label creations,
and creates only for requested names with no case-insensitive match among
the team's labels. -/
theorem collectLabelIds_ops_shape (env : LinearEnv) (teamId : Str) :
    ∀ (names : List Str) (op : ApiOp), op ∈ (collectLabelIds env teamId names).2 →
      (∃ t, op = ApiOp.getLabels t) ∨
      (∃ n, op = ApiOp.createLabel teamId n ∧ n ∈ names ∧
        (env.labelsOf teamId).find? (fun l => lcEq l.name n) = none) := by
  intro names
  induction names with
  | nil => intro op hop; simp [collectLabelIds] at hop
  | cons n rest ih =>
    intro op hop
    simp only [collectLabelIds] at hop
    rcases List.mem_append.mp hop with h | h
    · unfold findOrCreateLabel at h
      match hf : (env.labelsOf teamId).find? (fun l => lcEq l.name n) with
      | some l =>
        rw [hf] at h
        simp at h
        exact Or.inl ⟨teamId, h⟩
      | none =>
        rw [hf] at h
        simp at h
        rcases h with h | h
        · exact Or.inl ⟨teamId, h⟩
        · exact Or.inr ⟨n, h, List.mem_cons_self n rest, hf⟩
    · rcases ih op h with h' | ⟨n', h1, h2, h3⟩
      · exact Or.inl h'
      · exact Or.inr ⟨n', h1, List.mem_cons_of_mem n h2, h3⟩

/-- The ids collected are exactly the per-name find-or-create results, in
request order. -/
theorem collectLabelIds_ids (env : LinearEnv) (teamId : Str) :
    ∀ names, (collectLabelIds env teamId names).1 =
      names.filterMap (fun n => (findOrCreateLabel env teamId n).1) := by
  intro names
  induction names with
  | nil => rfl
  | cons n rest ih =>
    simp only [collectLabelIds, List.filterMap_cons]
    cases hf : (findOrCreateLabel env teamId n).1 <;> simp [hf, ih]

/-- No operation of the collection loop is an update mutation. -/
theorem collectLabelIds_no_update (env : LinearEnv) (teamId : Str) (names : List Str) :
    ∀ op ∈ (collectLabelIds env teamId names).2, isUpdateOp op = false := by
  intro op hop
  rcases collectLabelIds_ops_shape env teamId names op hop with ⟨t, rfl⟩ | ⟨n, rfl, _, _⟩ <;> rfl

/-- A filter over elements that all fail the predicate is empty. -/
theorem filter_nil_of_false {α : Type} {p : α → Bool} :
    ∀ l : List α, (∀ a ∈ l, p a = false) → l.filter p = []
  | [], _ => rfl
  | a :: l, h => by
    rw [List.filter_cons_of_neg (by simp [h a (List.mem_cons_self a l)])]
    exact filter_nil_of_false l (fun b hb => h b (List.mem_cons_of_mem a hb))

/-- The operations of a metadata update: the existence check and, when
the issue exists, a single mutation carrying the sparse payload. -/
theorem updateIssueMetadata_ops (env : LinearEnv) (issueId : Str)
    (d p : Option Str) (lids : Option (List Str)) :
    ∀ op ∈ (updateIssueMetadata env issueId d p lids).2,
      op = ApiOp.getIssue issueId ∨
      op = ApiOp.updateIssue issueId (buildUpdateInput d p lids) := by
  intro op hop
  unfold updateIssueMetadata at hop
  by_cases hex : env.issueExists issueId = false
  · rw [if_pos hex] at hop
    simp at hop
    exact Or.inl hop
  · rw [if_neg hex] at hop
    simp at hop
    rcases hop with h | h
    · exact Or.inl h
    · exact Or.inr h

/-- A metadata update sends at most one mutation. -/
theorem updateIssueMetadata_one_update (env : LinearEnv) (issueId : Str)
    (d p : Option Str) (lids : Option (List Str)) :
    (((updateIssueMetadata env issueId d p lids).2).filter isUpdateOp).length ≤ 1 := by
  unfold updateIssueMetadata
  by_cases hex : env.issueExists issueId = false
  · rw [if_pos hex]
    simp [isUpdateOp]
  · rw [if_neg hex]
    simp [isUpdateOp]

/-- `setIssueLabels` when the issue's team cannot be determined. -/
theorem setIssueLabels_eq_none (env : LinearEnv) (issueId : Str) (names : List Str)
    (h : env.teamOf issueId = none) :
    setIssueLabels env issueId names = ([], [ApiOp.getTeam issueId]) := by
  simp only [setIssueLabels, h]

/-- `setIssueLabels` when no label id was collected. -/
theorem setIssueLabels_eq_empty (env : LinearEnv) (issueId teamId : Str) (names : List Str)
    (h : env.teamOf issueId = some teamId)
    (hcol : (collectLabelIds env teamId names).1 = []) :
    setIssueLabels env issueId names =
      ([], ApiOp.getTeam issueId :: (collectLabelIds env teamId names).2) := by
  simp only [setIssueLabels, h]
  rw [if_pos hcol]

/-- `setIssueLabels` when at least one label id was collected. -/
theorem setIssueLabels_eq_nonempty (env : LinearEnv) (issueId teamId : Str) (names : List Str)
    (h : env.teamOf issueId = some teamId)
    (hcol : (collectLabelIds env teamId names).1 ≠ []) :
    setIssueLabels env issueId names =
      ((if (updateIssueMetadata env issueId none none
            (some (collectLabelIds env teamId names).1)).1
        then (collectLabelIds env teamId names).1 else []),
       (ApiOp.getTeam issueId :: (collectLabelIds env teamId names).2) ++
         (updateIssueMetadata env issueId none none
           (some (collectLabelIds env teamId names).1)).2) := by
  simp only [setIssueLabels, h]
  rw [if_neg hcol]

/-- C5: `setIssueLabels` matches requested names against the issue's
team's labels case-insensitively, creates a team-scoped label only for
names with no match, and issues at most one label-assignment update
mutation, carrying all collected label ids at once. -/
theorem setIssueLabels_correct (env : LinearEnv) (issueId : Str) (names : List Str) :
    ((setIssueLabels env issueId names).2.filter isUpdateOp).length ≤ 1 ∧
    (∀ i inp, ApiOp.updateIssue i inp ∈ (setIssueLabels env issueId names).2 →
      i = issueId ∧ ∃ teamId, env.teamOf issueId = some teamId ∧
        inp = buildUpdateInput none none (some (collectLabelIds env teamId names).1)) ∧
    (∀ t n, ApiOp.createLabel t n ∈ (setIssueLabels env issueId names).2 →
      env.teamOf issueId = some t ∧ n ∈ names ∧
      (env.labelsOf t).find? (fun l => lcEq l.name n) = none) ∧
    (∀ teamId, env.teamOf issueId = some teamId →
      (collectLabelIds env teamId names).1 =
        names.filterMap (fun n => (findOrCreateLabel env teamId n).1)) := by
  have hlast : ∀ t, env.teamOf issueId = some t →
      (collectLabelIds env t names).1 =
        names.filterMap (fun n => (findOrCreateLabel env t n).1) :=
    fun t _ => collectLabelIds_ids env t names
  obtain hnone | ⟨teamId, hteam⟩ :
      env.teamOf issueId = none ∨ ∃ t, env.teamOf issueId = some t := by
    cases env.teamOf issueId
    · exact Or.inl rfl
    · exact Or.inr ⟨_, rfl⟩
  · rw [setIssueLabels_eq_none env issueId names hnone]
    refine ⟨by simp [isUpdateOp], ?_, ?_, hlast⟩
    · intro i inp h
      simp at h
    · intro t n h
      simp at h
  · have hnoupd := collectLabelIds_no_update env teamId names
    have hfilternil : ((collectLabelIds env teamId names).2.filter isUpdateOp) = [] :=
      filter_nil_of_false _ hnoupd
    by_cases hcol : (collectLabelIds env teamId names).1 = []
    · rw [setIssueLabels_eq_empty env issueId teamId names hteam hcol]
      refine ⟨?_, ?_, ?_, hlast⟩
      · rw [List.filter_cons_of_neg (by simp [isUpdateOp]), hfilternil]
        simp
      · intro i inp h
        rcases List.mem_cons.mp h with h | h
        · simp at h
        · rcases collectLabelIds_ops_shape env teamId names _ h with ⟨t, ht⟩ | ⟨n, hn, _, _⟩
          · simp at ht
          · simp at hn
      · intro t n h
        rcases List.mem_cons.mp h with h | h
        · simp at h
        · rcases collectLabelIds_ops_shape env teamId names _ h with ⟨t2, ht2⟩ | ⟨n2, hn2, hm, hf⟩
          · simp at ht2
          · injection hn2 with h1 h2
            subst h1
            subst h2
            exact ⟨hteam, hm, hf⟩
    · rw [setIssueLabels_eq_nonempty env issueId teamId names hteam hcol]
      refine ⟨?_, ?_, ?_, hlast⟩
      · rw [List.filter_append, List.filter_cons_of_neg (by simp [isUpdateOp]), hfilternil,
          List.nil_append]
        exact updateIssueMetadata_one_update env issueId none none
          (some (collectLabelIds env teamId names).1)
      · intro i inp h
        rcases List.mem_append.mp h with h | h
        · rcases List.mem_cons.mp h with h | h
          · simp at h
          · rcases collectLabelIds_ops_shape env teamId names _ h with ⟨t, ht⟩ | ⟨n, hn, _, _⟩
            · simp at ht
            · simp at hn
        · rcases updateIssueMetadata_ops env issueId none none _ _ h with h2 | h2
          · simp at h2
          · injection h2 with ha hb
            subst ha
            subst hb
            exact ⟨rfl, teamId, hteam, rfl⟩
      · intro t n h
        rcases List.mem_append.mp h with h | h
        · rcases List.mem_cons.mp h with h | h
          · simp at h
          · rcases collectLabelIds_ops_shape env teamId names _ h with ⟨t2, ht2⟩ | ⟨n2, hn2, hm, hf⟩
            · simp at ht2
            · injection hn2 with h1 h2
              subst h1
              subst h2
              exact ⟨hteam, hm, hf⟩
        · rcases updateIssueMetadata_ops env issueId none none _ _ h with h2 | h2 <;> simp at h2

/-- Closed instance of the C5 theorem: name `fix` matches the existing
label `Fix` case-insensitively, name `new` is created, and the single
update mutation carries both collected ids. -/
theorem setIssueLabels_correct_witness :
    (("I1".toList : Str) = ("I1".toList)) ∧
    (∃ teamId, envW.teamOf ("I1".toList) = some teamId ∧
      buildUpdateInput none none (some [("L1".toList), ("L2".toList)]) =
        buildUpdateInput none none
          (some (collectLabelIds envW teamId [("fix".toList), ("new".toList)]).1)) := by
  exact (setIssueLabels_correct envW ("I1".toList) [("fix".toList), ("new".toList)]).2.1
    ("I1".toList) (buildUpdateInput none none (some [("L1".toList), ("L2".toList)]))
    (by decide)

/-- C6: in the create-parent metadata phase, even when the whole label
reconciliation fails (surfacing as an empty label-id list), the
due-date/project update mutation is still attempted. -/
theorem label_failure_not_block_due (env : LinearEnv) (issueId : Str)
    (labels : List Str) (dueDate : Str) (projectId : Option Str)
    (hfail : (setIssueLabels env issueId labels).1 = [])
    (hlab : labels ≠ []) (hdue : dueDate ≠ [])
    (hex : env.issueExists issueId = true) :
    ApiOp.updateIssue issueId
      (buildUpdateInput (some dueDate) (jsOrUndefined projectId) none) ∈
      metadataPhase env issueId labels dueDate projectId := by
  unfold metadataPhase
  refine List.mem_append_right _ ?_
  rw [show jsOrUndefined (some dueDate) = some dueDate from by simp [jsOrUndefined, hdue]]
  unfold updateIssueMetadata
  rw [if_neg (by simp [hex])]
  simp

/-- Closed instance of the C6 theorem: every label operation fails in
`envFailW`, yet the due-date mutation appears in the trace. -/
theorem label_failure_not_block_due_witness :
    ApiOp.updateIssue ("I1".toList)
      (buildUpdateInput (some ("2025-12-31".toList)) (jsOrUndefined none) none) ∈
      metadataPhase envFailW ("I1".toList) [("fix".toList)] ("2025-12-31".toList) none := by
  exact label_failure_not_block_due envFailW ("I1".toList) [("fix".toList)]
    ("2025-12-31".toList) none (by decide) (by decide) (by decide) rfl

end LinearTheorems

section GithubTheorems

/-- If the item first appears in round `a + n` within the retry budget,
the loop tries exactly rounds `a .. a+n`, sleeping `j * 1000` ms after
each unsuccessful round `j`, and returns the item id. -/
theorem ghGo_found (env : GhEnv) (issueId : Str) (m : Nat) (itemId : Str) :
    ∀ n a rem, lookupRound env issueId (a + n) = some itemId →
      (∀ j, a ≤ j → j < a + n → lookupRound env issueId j = none) →
      a + n ≤ m → n + 1 ≤ rem →
      getProjectItemIdGo env issueId m rem a =
        { result := some itemId, roundsTried := List.range' a (n + 1),
          sleeps := (List.range' a n).map (fun x => x * 1000) } := by
  intro n
  induction n with
  | zero =>
    intro a rem hfound _ _ hrem
    obtain ⟨r, rfl⟩ : ∃ r, rem = r + 1 := ⟨rem - 1, by omega⟩
    rw [Nat.add_zero] at hfound
    simp [getProjectItemIdGo, hfound, List.range'_one]
  | succ n ih =>
    intro a rem hfound hmiss hle hrem
    obtain ⟨r, rfl⟩ : ∃ r, rem = r + 1 := ⟨rem - 1, by omega⟩
    have hmissa : lookupRound env issueId a = none := hmiss a le_rfl (by omega)
    have hlt : a < m := by omega
    have hrec := ih (a + 1) r
      (by rw [show a + 1 + n = a + (n + 1) by omega]; exact hfound)
      (fun j h1 h2 => hmiss j (by omega) (by omega)) (by omega) (by omega)
    simp only [getProjectItemIdGo, hmissa, if_pos hlt, hrec]
    simp [List.range'_succ]

/-- If the item never appears in rounds `a .. a+n` and the budget is
`a + n`, the loop tries exactly those rounds, sleeps after each but the
last, and returns `none`. -/
theorem ghGo_exhaust (env : GhEnv) (issueId : Str) :
    ∀ n a rem, (∀ j, a ≤ j → j ≤ a + n → lookupRound env issueId j = none) →
      n + 1 ≤ rem →
      getProjectItemIdGo env issueId (a + n) rem a =
        { result := none, roundsTried := List.range' a (n + 1),
          sleeps := (List.range' a n).map (fun x => x * 1000) } := by
  intro n
  induction n with
  | zero =>
    intro a rem hmiss hrem
    obtain ⟨r, rfl⟩ : ∃ r, rem = r + 1 := ⟨rem - 1, by omega⟩
    have hmissa : lookupRound env issueId a = none := hmiss a le_rfl (by omega)
    have hnlt : ¬a < a + 0 := by omega
    simp [getProjectItemIdGo, hmissa, if_neg hnlt, List.range'_one]
  | succ n ih =>
    intro a rem hmiss hrem
    obtain ⟨r, rfl⟩ : ∃ r, rem = r + 1 := ⟨rem - 1, by omega⟩
    have hmissa : lookupRound env issueId a = none := hmiss a le_rfl (by omega)
    have hlt : a < a + (n + 1) := by omega
    have hrec := ih (a + 1) r (fun j h1 h2 => hmiss j (by omega) (by omega)) (by omega)
    rw [show a + 1 + n = a + (n + 1) by omega] at hrec
    simp only [getProjectItemIdGo, hmissa, if_pos hlt, hrec]
    simp [List.range'_succ]

/-- C7: `getProjectItemId` performs at most 3 rounds: a hit in round
`k ≤ 3` (each round searching every page) returns that item id
immediately after exactly rounds `1..k` with sleeps `1000·j` ms between
consecutive rounds, and three misses return `none` after rounds `1, 2, 3`
with sleeps `1000, 2000` ms. -/
theorem getProjectItemId_correct (env : GhEnv) (issueId : Str) :
    (∀ k itemId, 1 ≤ k → k ≤ 3 → lookupRound env issueId k = some itemId →
      (∀ j, 1 ≤ j → j < k → lookupRound env issueId j = none) →
      getProjectItemId env issueId =
        { result := some itemId, roundsTried := List.range' 1 k,
          sleeps := (List.range' 1 (k - 1)).map (fun x => x * 1000) }) ∧
    ((∀ j, 1 ≤ j → j ≤ 3 → lookupRound env issueId j = none) →
      getProjectItemId env issueId =
        { result := none, roundsTried := [1, 2, 3], sleeps := [1000, 2000] }) := by
  constructor
  · intro k itemId hk1 hk3 hfound hmiss
    have h := ghGo_found env issueId 3 itemId (k - 1) 1 3
      (by rw [show 1 + (k - 1) = k by omega]; exact hfound)
      (fun j h1 h2 => hmiss j h1 (by omega)) (by omega) (by omega)
    rw [show k - 1 + 1 = k from by omega] at h
    exact h
  · intro hmiss
    have h := ghGo_exhaust env issueId 2 1 3 (fun j h1 h2 => hmiss j h1 (by omega)) (by omega)
    exact h.trans (by decide)

/-- Closed instances of the C7 theorem: a hit in round 2 and a complete
miss. -/
theorem getProjectItemId_correct_witness :
    (getProjectItemId ghEnvW ("ISS1".toList) =
      { result := some ("IT1".toList), roundsTried := List.range' 1 2,
        sleeps := (List.range' 1 1).map (fun x => x * 1000) }) ∧
    (getProjectItemId ghEnvMissW ("ISS1".toList) =
      { result := none, roundsTried := [1, 2, 3], sleeps := [1000, 2000] }) := by
  constructor
  · exact (getProjectItemId_correct ghEnvW ("ISS1".toList)).1 2 ("IT1".toList)
      (by decide) (by decide) (by decide)
      (fun j h1 h2 => by
        have hj : j = 1 := by omega
        subst hj
        decide)
  · exact (getProjectItemId_correct ghEnvMissW ("ISS1".toList)).2 (fun j h1 h2 => rfl)

end GithubTheorems

section CliTheorems

/-- C8: a missing `LINEAR_API_KEY` exits 1 with no effect at all;
unpushed commits exit 1 after only the repository listing and the git
check; and any run that exits 1 in the precondition phase has performed
no external write — in particular no GitHub issue was created. -/
theorem createParentIssue_preconditions (env : CliEnv) :
    (env.linearApiKey = none → createParentIssue env = ([], some 1)) ∧
    (∀ k, env.linearApiKey = some k → env.hasUnpushed = true →
      createParentIssue env =
        ([CliEffect.listRepositories, CliEffect.gitCheckUnpushed], some 1)) ∧
    ((createParentIssue env).2 = some 1 →
      (∀ e ∈ (createParentIssue env).1, isExternalWrite e = false) ∧
      CliEffect.createGitHubIssue ∉ (createParentIssue env).1) := by
  obtain ⟨key, unp⟩ := env
  cases key with
  | none =>
    refine ⟨fun _ => rfl, ?_, ?_⟩
    · intro k h
      simp at h
    · intro _
      constructor
      · intro e he
        simp [createParentIssue] at he
      · intro hmem
        simp [createParentIssue] at hmem
  | some k0 =>
    cases unp with
    | true =>
      refine ⟨?_, ?_, ?_⟩
      · intro h
        simp at h
      · intro k _ _
        rfl
      · intro _
        constructor
        · intro e he
          simp [createParentIssue] at he
          rcases he with rfl | rfl <;> rfl
        · intro hmem
          simp [createParentIssue] at hmem
    | false =>
      refine ⟨?_, ?_, ?_⟩
      · intro h
        simp at h
      · intro k _ h
        simp at h
      · intro h
        simp [createParentIssue] at h

/-- Closed instances of the C8 theorem: the two failing preconditions. -/
theorem createParentIssue_preconditions_witness :
    (createParentIssue { linearApiKey := none, hasUnpushed := false } = ([], some 1)) ∧
    (createParentIssue { linearApiKey := some ("k".toList), hasUnpushed := true } =
      ([CliEffect.listRepositories, CliEffect.gitCheckUnpushed], some 1)) := by
  constructor
  · exact (createParentIssue_preconditions
      { linearApiKey := none, hasUnpushed := false }).1 rfl
  · exact (createParentIssue_preconditions
      { linearApiKey := some ("k".toList), hasUnpushed := true }).2.1 ("k".toList) rfl rfl

end CliTheorems

end LinearGithubCli
